import Mathlib

/-!
Verification of the playback / event-synchronization core of the mocap-viz
repository (`src/main.js`, plus the earlier revision kept as an unnamed file).

The JavaScript is shallowly embedded: JS numbers are modelled as rationals,
typed arrays as lists or (for the in-place mutated trail array) as functions
from slot index to value, and the per-tick mutations as explicit state passing.
`Math.random()` results are passed in as explicit parameters in `[0,1)`.
-/

namespace MocapViz

/-- A 3D position, as produced by the loaders (three float32 values). -/
structure Vec3 where
  x : ℚ
  y : ℚ
  z : ℚ
deriving DecidableEq, Repr

/-- The zero vector; typed arrays in the source are allocated zero-filled
(`new Array(maxTrailLength * 3).fill(0)`). -/
def v0 : Vec3 := ⟨0, 0, 0⟩

/-! ## PlaybackClock

`animate` (current revision) advances the virtual sample position with
`currentSample += delta * 120 * playbackControls.playbackSpeed;`
where `delta = clock.getDelta()` is the raw wall-clock delta in seconds.
No clamping of `delta` appears anywhere in the source. -/

/-- One tick of the playback clock: `currentSample += delta * 120 * speed`. -/
def advanceSample (pos delta speed : ℚ) : ℚ := pos + delta * 120 * speed

/-! ## Loop detection

`animate` computes `currentFrameIndex = Math.floor(currentSample) % L`
(for `L = markerData[0].length`) and signals a loop when
`currentFrameIndex < lastSampleIndex`. -/

/-- Loop predicate of `animate`: the current primary-track index is strictly
below the previous tick's index. -/
def didLoop (prev cur : ℕ) : Bool := cur < prev

/-- Number of loop signals produced when a sequence of primary-track indices is
observed tick by tick, starting from a given `lastSampleIndex`. -/
def countLoops (last : ℕ) : List ℕ → ℕ
  | [] => 0
  | i :: rest => (if didLoop last i then 1 else 0) + countLoops i rest

/-- The mutable per-tick state of `animate` that the loop reset touches:
the virtual position, the remembered primary index, the spike cursor, the
rigid-body trail fill count, and the dropped spike dots (`spikeGroup`). -/
structure AnimState where
  currentSample : ℚ
  lastSampleIndex : ℕ
  spikeIndex : ℕ
  rbTrailCount : ℕ
  spikeDots : List Vec3

/-- The loop-handling block of `animate` (after the clock advance): compute the
primary index; on a decrease, clear the spike dots and reset the spike cursor,
the virtual position and the rigid-body trail count; in either case remember
the computed index.  `L` is the primary (marker) track length, assumed positive
as in any loaded session. -/
def loopCheckStep (L : ℕ) (s : AnimState) : AnimState :=
  let currentFrameIndex := (⌊s.currentSample⌋).toNat % L
  if currentFrameIndex < s.lastSampleIndex then
    { currentSample := 0
      lastSampleIndex := currentFrameIndex
      spikeIndex := 0
      rbTrailCount := 0
      spikeDots := [] }
  else
    { s with lastSampleIndex := currentFrameIndex }

/-! ## TrailBuffer

`updateRigidBody` keeps a flat position array of `maxTrailLength` slots and a
fill count.  The array is mutated in place; we model the slot array as a
function from slot index to `Vec3` (one slot = one x,y,z triple; the JS loops
run over flat float indices in steps of 3, which is the same thing).  -/

/-- The padding loop at the end of `updateRigidBody`: every slot from `start`
up to `cap - 1` is overwritten with `p`. -/
def padFrom (cap : ℕ) (slots : ℕ → Vec3) (start : ℕ) (p : Vec3) : ℕ → Vec3 :=
  fun k => if start ≤ k ∧ k < cap then p else slots k

/-- The aging loop: `positions[j] = positions[j + 3]` for `j < (cnt - 1) * 3`,
i.e. slot `k` receives slot `k + 1` for `k < cnt - 1`. -/
def rbShiftLeft (slots : ℕ → Vec3) (cnt : ℕ) : ℕ → Vec3 :=
  fun k => if k < cnt - 1 then slots (k + 1) else slots k

/-- Write one slot. -/
def setSlot (slots : ℕ → Vec3) (i : ℕ) (p : Vec3) : ℕ → Vec3 :=
  fun k => if k = i then p else slots k

/-- One append to the rigid-body trail, exactly as in `updateRigidBody`:
if the trail is empty, write slot 0 and set the count to 1; otherwise shift
the first `cnt - 1` slots left, write the new position at slot `cnt - 1`, and
increment the count if below capacity.  Finally pad all slots at and above the
new count with the current position. -/
def rbAppend (cap : ℕ) (s : (ℕ → Vec3) × ℕ) (p : Vec3) : (ℕ → Vec3) × ℕ :=
  if s.2 = 0 then
    (padFrom cap (setSlot s.1 0 p) 1 p, 1)
  else
    let newCnt := if s.2 < cap then s.2 + 1 else s.2
    (padFrom cap (setSlot (rbShiftLeft s.1 s.2) (s.2 - 1) p) newCnt p, newCnt)

/-- The initial trail state: a zero-filled slot array and count 0. -/
def rbInit : (ℕ → Vec3) × ℕ := (fun _ => v0, 0)

/-- The trail state after appending `f 1, f 2, ..., f n` (in this order) to the
initially empty trail of capacity `cap`. -/
def rbIter (cap : ℕ) (f : ℕ → Vec3) : ℕ → (ℕ → Vec3) × ℕ
  | 0 => rbInit
  | n + 1 => rbAppend cap (rbIter cap f n) (f (n + 1))

/-! ## Recency weight

The marker-trail update in `animate` (earlier revision and first file) sets
`progArray[j] = (trail.count > 1) ? (j / (trail.count - 1)) : 1` for every
`j < trail.count`. -/

/-- Recency weight of slot `j` of a trail holding `cnt` positions. -/
def recencyWeight (cnt j : ℕ) : ℚ :=
  if 1 < cnt then (j : ℚ) / ((cnt : ℚ) - 1) else 1

/-! ## SpikeEventCursor

`updateSpikes` scans the sorted spike table:
`while (spikeIndex < spikeTimes.length && spikeTimes[spikeIndex] <= currentFrameTime)`,
emitting a dot when the neuron id is selected, and increments the cursor
unconditionally.  The loop is modelled with explicit fuel
(`times.length - cursor` suffices, since the cursor grows by one per
iteration and the loop stops at the table length). -/

/-- The scan loop body, fuelled.  Returns the final cursor and the list of
table indices at which an event is emitted, in emission order. -/
def scanFrom (times : List ℚ) (ids sel : List ℕ) (T : ℚ) :
    ℕ → ℕ → ℕ × List ℕ
  | 0, c => (c, [])
  | fuel + 1, c =>
    if c < times.length ∧ times.getD c 0 ≤ T then
      let r := scanFrom times ids sel T fuel (c + 1)
      if ids.getD c 0 ∈ sel then (r.1, c :: r.2) else r
    else (c, [])

/-- One call of `updateSpikes` at frame time `T`, starting at cursor `c`. -/
def updateSpikesScan (times : List ℚ) (ids sel : List ℕ) (T : ℚ) (c : ℕ) :
    ℕ × List ℕ :=
  scanFrom times ids sel T (times.length - c) c

/-- A sequence of `updateSpikes` calls with successive frame times `Ts`;
returns the final cursor and all emitted table indices in order. -/
def scanSeq (times : List ℚ) (ids sel : List ℕ) : List ℚ → ℕ → ℕ × List ℕ
  | [], c => (c, [])
  | T :: Ts, c =>
    let r := updateSpikesScan times ids sel T c
    let rest := scanSeq times ids sel Ts r.1
    (rest.1, r.2 ++ rest.2)

/-- Models `const currentFrameTime = frameTimes[Math.floor(currentSample)] || 0;` —
an out-of-range lookup (JS `undefined`) is coerced to `0`. -/
def currentFrameTimeOf (frameTimes : List ℚ) (idx : ℕ) : ℚ :=
  frameTimes.getD idx 0

/-- Models `const DITHER_AMOUNT = 0.05;`. -/
def ditherAmount : ℚ := 0.05

/-- Position given to a newly created spike dot in `updateSpikes`:
the rigid-body position projected to the floor (`y` replaced by `0.005`)
plus an independent uniform dither in each coordinate; `r1 r2 r3` stand for
the three `Math.random()` draws, each in `[0,1)`. -/
def spikeDotPosition (rb : Vec3) (r1 r2 r3 : ℚ) : Vec3 :=
  ⟨rb.x + (r1 - 0.5) * ditherAmount,
   0.005 + (r2 - 0.5) * ditherAmount,
   rb.z + (r3 - 0.5) * ditherAmount⟩

/-! ## Sample indexing and empty tracks

`updateMarkersAndConnections` computes
`sampleIndex = Math.floor(currentSample) % data.length` with no guard on
`data.length`; in JS a modulus of 0 yields `NaN` and the subsequent array
access fails.  `updateRigidBody` instead returns early when
`rbposData.length === 0`.  The invalid result of a JS modulo-by-zero is
modelled as `none`. -/

/-- JS `a % b` on naturals: `none` models the `NaN` produced when `b = 0`. -/
def jsMod (a b : ℕ) : Option ℕ :=
  if b = 0 then none else some (a % b)

/-- The per-marker index computation of `updateMarkersAndConnections`. -/
def markerSampleIndex (cur : ℚ) (len : ℕ) : Option ℕ :=
  jsMod (⌊cur⌋).toNat len

/-- The per-marker position lookup: `data[sampleIndex]`; `none` models the
failed lookup after a modulo-by-zero. -/
def markerPosAt (data : List Vec3) (cur : ℚ) : Option Vec3 :=
  (markerSampleIndex cur data.length).bind fun i => data.get? i

/-- The marker update as guarded in `animate`: skipped (`none`) only when the
outer `markerData` array is empty; otherwise every per-marker track is indexed,
whatever its length. -/
def updateMarkersPositions (markerData : List (List Vec3)) (cur : ℚ) :
    Option (List (Option Vec3)) :=
  if markerData.length = 0 then none
  else some (markerData.map fun data => markerPosAt data cur)

/-- The rigid-body update step: `if (rbposData.length === 0) return;` and
otherwise an indexed lookup (modulo is evaluated only on a positive length)
followed by the trail append. -/
def updateRigidBodyTrailStep (rbpos : List Vec3) (cur : ℚ) (cap : ℕ)
    (trail : (ℕ → Vec3) × ℕ) : (ℕ → Vec3) × ℕ :=
  if rbpos.length = 0 then trail
  else rbAppend cap trail (rbpos.getD ((⌊cur⌋).toNat % rbpos.length) v0)

/-! ## Theorems -/

/-- C1 counterexample: the claim says a wall delta of `5.0` (above the alleged
`0.1` threshold) contributes `0` advance; in the code it contributes
`5 * 120 * 1 = 600`, which is not `0`. -/
theorem advance_clamp_cex :
    advanceSample 0 5 1 - 0 = 600 ∧ (600 : ℚ) ≠ 0 := by
  constructor
  · norm_num [advanceSample]
  · norm_num

/-- C1 (amended): the playback clock applies no clamping at all — every tick
advances the virtual position by exactly `delta * 120 * speedMultiplier`,
whatever the wall-clock delta is. -/
theorem advance_unclamped (pos delta speed : ℚ) :
    advanceSample pos delta speed - pos = delta * 120 * speed := by
  simp [advanceSample]

/-- C7: for a trail holding `cnt ≥ 1` positions, the most recent slot
(index `cnt - 1`) has recency weight exactly `1`, including when `cnt = 1`;
every slot `j < cnt` has weight `j / (cnt - 1)` when `cnt > 1` (so the oldest
slot has weight `0`) and weight `1` when `cnt = 1`; all weights lie in
`[0, 1]`.  The weight depends only on the fill count, not on the capacity. -/
theorem recencyWeight_spec (cnt j : ℕ) (hcnt : 1 ≤ cnt) (hj : j < cnt) :
    recencyWeight cnt (cnt - 1) = 1 ∧
    (1 < cnt → recencyWeight cnt j = (j : ℚ) / ((cnt : ℚ) - 1)) ∧
    (cnt = 1 → recencyWeight cnt j = 1) ∧
    (1 < cnt → recencyWeight cnt 0 = 0) ∧
    0 ≤ recencyWeight cnt j ∧ recencyWeight cnt j ≤ 1 := by
  have hden : ∀ h : 1 < cnt, (0 : ℚ) < (cnt : ℚ) - 1 := by
    intro h
    have : (1 : ℚ) < (cnt : ℚ) := by exact_mod_cast h
    linarith
  refine ⟨?_, ?_, ?_, ?_, ?_, ?_⟩
  · by_cases h : 1 < cnt
    · have hpos := hden h
      have hcast : ((cnt - 1 : ℕ) : ℚ) = (cnt : ℚ) - 1 := by
        have : 1 ≤ cnt := hcnt
        push_cast [this]
        ring
      simp only [recencyWeight, if_pos h, hcast]
      exact div_self (ne_of_gt hpos)
    · have h1 : cnt = 1 := by omega
      simp [recencyWeight, h1]
  · intro h
    simp [recencyWeight, if_pos h]
  · intro h
    simp [recencyWeight, h]
  · intro h
    simp [recencyWeight, if_pos h]
  · by_cases h : 1 < cnt
    · have hpos := hden h
      simp only [recencyWeight, if_pos h]
      positivity
    · simp [recencyWeight, h]
  · by_cases h : 1 < cnt
    · have hpos := hden h
      simp only [recencyWeight, if_pos h]
      rw [div_le_one hpos]
      have : (j : ℚ) ≤ (cnt : ℚ) - 1 := by
        have : j ≤ cnt - 1 := by omega
        have hc : ((cnt - 1 : ℕ) : ℚ) = (cnt : ℚ) - 1 := by
          push_cast [hcnt]
          ring
        calc (j : ℚ) ≤ ((cnt - 1 : ℕ) : ℚ) := by exact_mod_cast this
          _ = (cnt : ℚ) - 1 := hc
      linarith
    · simp [recencyWeight, h]

/-- C7 witness: instance of `recencyWeight_spec` at `cnt = 3`, `j = 1`. -/
theorem recencyWeight_spec_witness :
    recencyWeight 3 2 = 1 ∧
    (1 < 3 → recencyWeight 3 1 = (1 : ℚ) / ((3 : ℚ) - 1)) ∧
    (3 = 1 → recencyWeight 3 1 = 1) ∧
    (1 < 3 → recencyWeight 3 0 = 0) ∧
    0 ≤ recencyWeight 3 1 ∧ recencyWeight 3 1 ≤ 1 :=
  recencyWeight_spec 3 1 (by decide) (by decide)

/-- C4: on a tick where the loop condition fires (the freshly computed primary
index is strictly below the remembered one), `animate` resets every piece of
dependent mutable state: the virtual position, the spike cursor and the
rigid-body trail count all become `0`, and the set of dropped spike dots is
cleared. -/
theorem loop_reset_spec (L : ℕ) (s : AnimState) (_hL : 0 < L)
    (h : (⌊s.currentSample⌋).toNat % L < s.lastSampleIndex) :
    (loopCheckStep L s).currentSample = 0 ∧
    (loopCheckStep L s).spikeIndex = 0 ∧
    (loopCheckStep L s).rbTrailCount = 0 ∧
    (loopCheckStep L s).spikeDots = [] := by
  simp [loopCheckStep, if_pos h]

/-- C4 witness: instance of `loop_reset_spec` for a track of length 4 and a
state whose remembered index exceeds the current one. -/
theorem loop_reset_spec_witness :
    (loopCheckStep 4 ⟨0, 3, 5, 7, [⟨1, 2, 3⟩]⟩).currentSample = 0 ∧
    (loopCheckStep 4 ⟨0, 3, 5, 7, [⟨1, 2, 3⟩]⟩).spikeIndex = 0 ∧
    (loopCheckStep 4 ⟨0, 3, 5, 7, [⟨1, 2, 3⟩]⟩).rbTrailCount = 0 ∧
    (loopCheckStep 4 ⟨0, 3, 5, 7, [⟨1, 2, 3⟩]⟩).spikeDots = [] :=
  loop_reset_spec 4 ⟨0, 3, 5, 7, [⟨1, 2, 3⟩]⟩ (by decide) (by norm_num)

/-- Unfolding lemma for `countLoops` on a cons cell. -/
lemma countLoops_cons (last i : ℕ) (rest : List ℕ) :
    countLoops last (i :: rest) =
      (if i < last then 1 else 0) + countLoops i rest := by
  simp [countLoops, didLoop]

/-- Observing a strictly increasing run of indices `s, s+1, ..., s+n-1` from a
remembered index `last ≤ s` produces no loop signal. -/
lemma countLoops_range' (n : ℕ) :
    ∀ s last, last ≤ s → countLoops last (List.range' s n) = 0 := by
  induction n with
  | zero => intro s last _; simp [countLoops]
  | succ m ih =>
    intro s last hls
    rw [List.range'_succ, countLoops_cons, if_neg (by omega)]
    simpa using ih (s + 1) s (by omega)

/-- Observing the run `s, s+1, ..., s+n-1` (with `1 ≤ s`, `1 ≤ n`) followed by
the index `0` signals a loop exactly once. -/
lemma countLoops_range'_zero (n : ℕ) (hn : 1 ≤ n) :
    ∀ s last, last ≤ s → 1 ≤ s →
      countLoops last (List.range' s n ++ [0]) = 1 := by
  induction n with
  | zero => omega
  | succ m ih =>
    intro s last hls hs
    rw [List.range'_succ, List.cons_append, countLoops_cons, if_neg (by omega)]
    rcases Nat.eq_zero_or_pos m with hm | hm
    · subst hm
      have hd : didLoop s 0 = true := by
        simp only [didLoop, decide_eq_true_eq]
        omega
      simp [countLoops, hd]
    · simpa using ih hm (s + 1) s (by omega) (by omega)

/-- C3 counterexample: for a primary track of length `L = 1`, feeding the index
sequence `0, ..., L-1, 0` (that is, `0, 0`) signals no loop at all — not the
one loop the claim asserts — because `didLoop 0 0` compares `0 < 0`. -/
theorem didLoop_once_cex :
    countLoops 0 (List.range 1 ++ [0]) = 0 ∧ didLoop 0 0 = false := by
  constructor
  · decide
  · decide

/-- C3 (amended): the loop signal fires exactly when the current primary-track
index is strictly below the previous tick's index; and for every track length
`L ≥ 2`, feeding the index sequence `0, 1, ..., L-1, 0` signals no loop on the
increasing prefix and exactly one loop in total, which occurs at the final
transition from `L-1` to `0` (where `didLoop (L-1) 0` is `true`). -/
theorem didLoop_spec (L : ℕ) (hL : 2 ≤ L) :
    (∀ prev cur, didLoop prev cur = true ↔ cur < prev) ∧
    countLoops 0 (List.range L) = 0 ∧
    countLoops 0 (List.range L ++ [0]) = 1 ∧
    didLoop (L - 1) 0 = true := by
  refine ⟨fun prev cur => by simp [didLoop], ?_, ?_, ?_⟩
  · rw [List.range_eq_range']
    exact countLoops_range' L 0 0 le_rfl
  · have hsplit : List.range L = 0 :: List.range' 1 (L - 1) := by
      have hL1 : L = (L - 1) + 1 := by omega
      conv_lhs => rw [List.range_eq_range', hL1, List.range'_succ]
    rw [hsplit, List.cons_append, countLoops_cons, if_neg (lt_irrefl 0)]
    simpa using countLoops_range'_zero (L - 1) (by omega) 1 0 (by omega) le_rfl
  · simp only [didLoop, decide_eq_true_eq]
    omega

/-- C3 witness: instance of `didLoop_spec` at `L = 4` — the sequence
`0,1,2,3,0` signals exactly one loop, at the transition `3 → 0`. -/
theorem didLoop_spec_witness :
    (∀ prev cur, didLoop prev cur = true ↔ cur < prev) ∧
    countLoops 0 (List.range 4) = 0 ∧
    countLoops 0 (List.range 4 ++ [0]) = 1 ∧
    didLoop (4 - 1) 0 = true :=
  didLoop_spec 4 (by decide)

/-- Fill count after one append: `1` from empty, otherwise incremented while
below capacity. -/
lemma rbAppend_count (cap : ℕ) (s : (ℕ → Vec3) × ℕ) (p : Vec3) :
    (rbAppend cap s p).2 =
      if s.2 = 0 then 1 else if s.2 < cap then s.2 + 1 else s.2 := by
  by_cases h : s.2 = 0 <;> simp [rbAppend, h]

/-- Fill count after `N` appends is `min N cap` (for positive capacity). -/
lemma rbIter_count (cap : ℕ) (hcap : 1 ≤ cap) (f : ℕ → Vec3) :
    ∀ N, (rbIter cap f N).2 = min N cap := by
  intro N
  induction N with
  | zero => simp [rbIter, rbInit]
  | succ m ih =>
    rw [rbIter, rbAppend_count, ih]
    rcases Nat.lt_or_ge m cap with h | h
    · rcases Nat.eq_zero_or_pos m with hm | hm
      · subst hm; simp; omega
      · rw [if_neg (by omega), if_pos (by omega)]; omega
    · rw [if_neg (by omega), if_neg (by omega)]; omega

/-- Growth-phase invariant of the rigid-body trail, for `1 ≤ N ≤ cap` appends:
all slots at index `≥ N` carry the padding value `f N`; slot `0` is `f 1` when
`N = 1`; for `N ≥ 2` the newest slot (index `N - 1`) still carries the
previous position `f (N - 1)` while the most recent position `f N` sits at
index `N - 2`. -/
lemma rbIter_growth (cap : ℕ) (hcap : 1 ≤ cap) (f : ℕ → Vec3) :
    ∀ N, 1 ≤ N → N ≤ cap →
      (∀ k, N ≤ k → k < cap → (rbIter cap f N).1 k = f N) ∧
      (N = 1 → (rbIter cap f N).1 0 = f 1) ∧
      (2 ≤ N → (rbIter cap f N).1 (N - 1) = f (N - 1)) ∧
      (2 ≤ N → (rbIter cap f N).1 (N - 2) = f N) := by
  intro N
  induction N with
  | zero => omega
  | succ m ih =>
    intro _ hcapN
    rcases Nat.eq_zero_or_pos m with hm | hm
    · subst hm
      refine ⟨?_, ?_, by omega, by omega⟩
      · intro k hk hkcap
        simp [rbIter, rbInit, rbAppend, padFrom, hk, hkcap]
      · intro _
        simp [rbIter, rbInit, rbAppend, padFrom, setSlot, hcap]
    · obtain ⟨ih1, _, _, _⟩ := ih hm (by omega)
      have hcnt : (rbIter cap f m).2 = m := by
        rw [rbIter_count cap hcap f m]; omega
      have hmlt : m < cap := by omega
      have hstep : rbIter cap f (m + 1) =
          rbAppend cap (rbIter cap f m) (f (m + 1)) := rfl
      have hslots : (rbIter cap f (m + 1)).1 =
          padFrom cap
            (setSlot (rbShiftLeft (rbIter cap f m).1 m) (m - 1) (f (m + 1)))
            (m + 1) (f (m + 1)) := by
        rw [hstep]
        simp only [rbAppend, hcnt, if_neg (by omega : ¬ m = 0),
          if_pos hmlt]
      refine ⟨?_, by omega, ?_, ?_⟩
      · intro k hk hkcap
        rw [hslots]
        simp [padFrom, hk, hkcap]
      · intro _
        rw [hslots]
        have h1 : ¬ (m + 1 ≤ (m + 1) - 1 ∧ (m + 1) - 1 < cap) := by omega
        have h2 : ¬ ((m + 1) - 1 = m - 1) := by omega
        have h3 : ¬ ((m + 1) - 1 < m - 1) := by omega
        simp only [padFrom, setSlot, rbShiftLeft, if_neg h1, if_neg h2,
          if_neg h3]
        have : (m + 1) - 1 = m := by omega
        rw [this]
        exact ih1 m le_rfl hmlt
      · intro _
        rw [hslots]
        have h1 : ¬ (m + 1 ≤ (m + 1) - 2 ∧ (m + 1) - 2 < cap) := by omega
        have h2 : (m + 1) - 2 = m - 1 := by omega
        simp [padFrom, setSlot, if_neg h1, h2]

/-- Appending to a full trail (count = capacity) writes the new position into
the last slot and keeps the count. -/
lemma rbAppend_full (cap : ℕ) (hcap : 1 ≤ cap) (s : (ℕ → Vec3) × ℕ)
    (p : Vec3) (hs : s.2 = cap) :
    (rbAppend cap s p).1 (cap - 1) = p ∧ (rbAppend cap s p).2 = cap := by
  constructor
  · simp only [rbAppend, hs, if_neg (by omega : ¬ cap = 0),
      if_neg (lt_irrefl cap)]
    have h1 : ¬ (cap ≤ cap - 1 ∧ cap - 1 < cap) := by omega
    simp [padFrom, setSlot, if_neg h1, hs]
  · rw [rbAppend_count, hs]
    simp [if_neg (by omega : ¬ cap = 0)]

/-- C2 counterexample: with capacity `2` and the two distinct appended
positions `(1,0,0)` then `(2,0,0)`, the fill count is `min 2 2 = 2` as claimed,
but the newest slot (index `filledCount - 1 = 1`) holds the *first* position
`(1,0,0)`, not the most recently appended `(2,0,0)`. -/
theorem trail_newest_cex :
    (rbIter 2 (fun n => ⟨(n : ℚ), 0, 0⟩) 2).2 = 2 ∧
    (rbIter 2 (fun n => ⟨(n : ℚ), 0, 0⟩) 2).1 (2 - 1) = ⟨1, 0, 0⟩ ∧
    (⟨(1 : ℚ), 0, 0⟩ : Vec3) ≠ ⟨2, 0, 0⟩ := by
  refine ⟨by decide, by decide, by decide⟩

/-- C2 (amended): after appending `N ≥ 1` positions to the initially empty
trail of capacity `cap ≥ 1`, the fill count is `min N cap`; the newest slot
(index `filledCount - 1`) holds the most recently appended position when
`N = 1` or `N > cap`, but during the growth phase `2 ≤ N ≤ cap` it holds the
previous position `f (N-1)`, the most recent position `f N` sitting one slot
below (index `N - 2`). -/
theorem trail_append_spec (cap : ℕ) (f : ℕ → Vec3) (N : ℕ)
    (hcap : 1 ≤ cap) (hN : 1 ≤ N) :
    (rbIter cap f N).2 = min N cap ∧
    (N = 1 → (rbIter cap f N).1 (min N cap - 1) = f N) ∧
    (cap < N → (rbIter cap f N).1 (min N cap - 1) = f N) ∧
    (2 ≤ N → N ≤ cap →
      (rbIter cap f N).1 (N - 1) = f (N - 1) ∧
      (rbIter cap f N).1 (N - 2) = f N) := by
  refine ⟨rbIter_count cap hcap f N, ?_, ?_, ?_⟩
  · intro h1
    subst h1
    obtain ⟨_, h0, _, _⟩ := rbIter_growth cap hcap f 1 le_rfl hcap
    simpa [Nat.min_eq_left hcap] using h0 rfl
  · intro hlt
    obtain ⟨M, hM⟩ : ∃ M, N = M + 1 := ⟨N - 1, by omega⟩
    subst hM
    have hMcnt : (rbIter cap f M).2 = cap := by
      rw [rbIter_count cap hcap f M]; omega
    have := rbAppend_full cap hcap (rbIter cap f M) (f (M + 1)) hMcnt
    have hmin : min (M + 1) cap = cap := by omega
    rw [hmin]
    exact this.1
  · intro h2 hle
    obtain ⟨_, _, h3, h4⟩ := rbIter_growth cap hcap f N hN hle
    exact ⟨h3 h2, h4 h2⟩

/-- C2 witness for the amended statement: capacity `3`, appends
`(1,0,0), (2,0,0)` — count is `2`, the newest slot holds `(1,0,0)` and slot
`0` holds the latest position `(2,0,0)`. -/
theorem trail_append_spec_witness :
    (rbIter 3 (fun n => ⟨(n : ℚ), 0, 0⟩) 2).2 = min 2 3 ∧
    (2 = 1 → (rbIter 3 (fun n => ⟨(n : ℚ), 0, 0⟩) 2).1 (min 2 3 - 1) =
      (⟨(2 : ℚ), 0, 0⟩ : Vec3)) ∧
    (3 < 2 → (rbIter 3 (fun n => ⟨(n : ℚ), 0, 0⟩) 2).1 (min 2 3 - 1) =
      (⟨(2 : ℚ), 0, 0⟩ : Vec3)) ∧
    (2 ≤ 2 → 2 ≤ 3 →
      (rbIter 3 (fun n => ⟨(n : ℚ), 0, 0⟩) 2).1 (2 - 1) =
        (⟨(1 : ℚ), 0, 0⟩ : Vec3) ∧
      (rbIter 3 (fun n => ⟨(n : ℚ), 0, 0⟩) 2).1 (2 - 2) =
        (⟨(2 : ℚ), 0, 0⟩ : Vec3)) := by
  have h := trail_append_spec 3 (fun n => ⟨(n : ℚ), 0, 0⟩) 2
    (by decide) (by decide)
  simpa using h

/-- The scan cursor never moves backwards. -/
lemma scanFrom_cursor_ge (times : List ℚ) (ids sel : List ℕ) (T : ℚ) :
    ∀ fuel c, c ≤ (scanFrom times ids sel T fuel c).1 := by
  intro fuel
  induction fuel with
  | zero => intro c; simp [scanFrom]
  | succ m ih =>
    intro c
    simp only [scanFrom]
    split
    · have := ih (c + 1)
      split <;> omega
    · simp

/-- Every emitted index lies between the starting and the final cursor. -/
lemma scanFrom_emit_bounds (times : List ℚ) (ids sel : List ℕ) (T : ℚ) :
    ∀ fuel c e, e ∈ (scanFrom times ids sel T fuel c).2 →
      c ≤ e ∧ e < (scanFrom times ids sel T fuel c).1 := by
  intro fuel
  induction fuel with
  | zero => intro c e he; simp [scanFrom] at he
  | succ m ih =>
    intro c e he
    simp only [scanFrom] at he ⊢
    split at he
    · have hge := scanFrom_cursor_ge times ids sel T m (c + 1)
      split at he
      · rcases List.mem_cons.mp he with rfl | hmem
        · split <;> omega
        · have := ih (c + 1) e hmem
          split <;> omega
      · have := ih (c + 1) e he
        split <;> omega
    · simp at he

/-- Emitted indices are strictly increasing within one scan. -/
lemma scanFrom_pairwise (times : List ℚ) (ids sel : List ℕ) (T : ℚ) :
    ∀ fuel c, (scanFrom times ids sel T fuel c).2.Pairwise (· < ·) := by
  intro fuel
  induction fuel with
  | zero => intro c; simp [scanFrom]
  | succ m ih =>
    intro c
    simp only [scanFrom]
    split
    · split
      · refine List.pairwise_cons.mpr ⟨?_, ih (c + 1)⟩
        intro e he
        have := scanFrom_emit_bounds times ids sel T m (c + 1) e he
        omega
      · exact ih (c + 1)
    · simp

/-- The final cursor does not depend on the source filter. -/
lemma scanFrom_cursor_sel (times : List ℚ) (ids : List ℕ) (T : ℚ)
    (sel₁ sel₂ : List ℕ) :
    ∀ fuel c, (scanFrom times ids sel₁ T fuel c).1 =
      (scanFrom times ids sel₂ T fuel c).1 := by
  intro fuel
  induction fuel with
  | zero => intro c; simp [scanFrom]
  | succ m ih =>
    intro c
    simp only [scanFrom]
    split
    · have := ih (c + 1)
      split <;> split <;> simp_all
    · rfl

/-- Every index passed over by one scan was in range and due at that scan's
frame time. -/
lemma scanFrom_consumed (times : List ℚ) (ids sel : List ℕ) (T : ℚ) :
    ∀ fuel c i, c ≤ i → i < (scanFrom times ids sel T fuel c).1 →
      i < times.length ∧ times.getD i 0 ≤ T := by
  intro fuel
  induction fuel with
  | zero => intro c i hci hi; simp [scanFrom] at hi; omega
  | succ m ih =>
    intro c i hci hi
    simp only [scanFrom] at hi
    split at hi
    · rename_i hcond
      rcases Nat.eq_or_lt_of_le hci with rfl | hlt
      · exact hcond
      · have hi' : i < (scanFrom times ids sel T m (c + 1)).1 := by
          split at hi <;> simpa using hi
        exact ih (c + 1) i hlt hi'
    · omega

/-- When the head of the table is not due (or the cursor is at the end), the
scan does nothing, whatever the fuel. -/
lemma scanFrom_stuck (times : List ℚ) (ids sel : List ℕ) (T : ℚ) (c : ℕ)
    (h : ¬ (c < times.length ∧ times.getD c 0 ≤ T)) :
    ∀ fuel, scanFrom times ids sel T fuel c = (c, []) := by
  intro fuel
  cases fuel with
  | zero => rfl
  | succ m => simp only [scanFrom, if_neg h]

/-- With enough fuel and every entry due, the scan reaches the end of the
table. -/
lemma scanFrom_reach (times : List ℚ) (ids sel : List ℕ) (T : ℚ)
    (hdue : ∀ i, i < times.length → times.getD i 0 ≤ T) :
    ∀ fuel c, c ≤ times.length → times.length - c ≤ fuel →
      (scanFrom times ids sel T fuel c).1 = times.length := by
  intro fuel
  induction fuel with
  | zero =>
    intro c hc hf
    have : c = times.length := by omega
    simp [scanFrom, this]
  | succ m ih =>
    intro c hc hf
    rcases Nat.eq_or_lt_of_le hc with rfl | hlt
    · have : ¬ (times.length < times.length ∧ times.getD times.length 0 ≤ T) := by
        simp
      simp [scanFrom, this]
    · have hcond : c < times.length ∧ times.getD c 0 ≤ T :=
        ⟨hlt, hdue c hlt⟩
      simp only [scanFrom, if_pos hcond]
      have := ih (c + 1) (by omega) (by omega)
      split <;> simpa using this

/-- When every scanned index is selected, one event is emitted per consumed
index. -/
lemma scanFrom_emit_all (times : List ℚ) (ids sel : List ℕ) (T : ℚ)
    (hsel : ∀ i, i < times.length → ids.getD i 0 ∈ sel) :
    ∀ fuel c, (scanFrom times ids sel T fuel c).2.length =
      (scanFrom times ids sel T fuel c).1 - c := by
  intro fuel
  induction fuel with
  | zero => intro c; simp [scanFrom]
  | succ m ih =>
    intro c
    simp only [scanFrom]
    split
    · rename_i hcond
      have hmem : ids.getD c 0 ∈ sel := hsel c hcond.1
      have hge := scanFrom_cursor_ge times ids sel T m (c + 1)
      rw [if_pos hmem]
      simp only [List.length_cons]
      rw [ih (c + 1)]
      omega
    · simp

/-- With an empty filter nothing is ever emitted. -/
lemma scanFrom_emit_empty (times : List ℚ) (ids : List ℕ) (T : ℚ) :
    ∀ fuel c, (scanFrom times ids [] T fuel c).2 = [] := by
  intro fuel
  induction fuel with
  | zero => intro c; simp [scanFrom]
  | succ m ih =>
    intro c
    simp only [scanFrom]
    split
    · simpa using ih (c + 1)
    · rfl

/-- The cursor never moves backwards across a sequence of scans. -/
lemma scanSeq_cursor_ge (times : List ℚ) (ids sel : List ℕ) :
    ∀ Ts c, c ≤ (scanSeq times ids sel Ts c).1 := by
  intro Ts
  induction Ts with
  | nil => intro c; simp [scanSeq]
  | cons T Ts ih =>
    intro c
    simp only [scanSeq]
    have h1 := scanFrom_cursor_ge times ids sel T (times.length - c) c
    have h2 := ih (updateSpikesScan times ids sel T c).1
    calc c ≤ (updateSpikesScan times ids sel T c).1 := h1
      _ ≤ _ := h2

/-- Every index emitted across a sequence of scans is at least the starting
cursor. -/
lemma scanSeq_emit_ge (times : List ℚ) (ids sel : List ℕ) :
    ∀ Ts c e, e ∈ (scanSeq times ids sel Ts c).2 → c ≤ e := by
  intro Ts
  induction Ts with
  | nil => intro c e he; simp [scanSeq] at he
  | cons T Ts ih =>
    intro c e he
    simp only [scanSeq, updateSpikesScan, List.mem_append] at he
    rcases he with he | he
    · exact (scanFrom_emit_bounds times ids sel T (times.length - c) c e he).1
    · have h1 := scanFrom_cursor_ge times ids sel T (times.length - c) c
      have h2 := ih (scanFrom times ids sel T (times.length - c) c).1 e he
      omega

/-- Across a sequence of scans all emitted indices are strictly increasing. -/
lemma scanSeq_pairwise (times : List ℚ) (ids sel : List ℕ) :
    ∀ Ts c, (scanSeq times ids sel Ts c).2.Pairwise (· < ·) := by
  intro Ts
  induction Ts with
  | nil => intro c; simp [scanSeq]
  | cons T Ts ih =>
    intro c
    simp only [scanSeq, updateSpikesScan]
    refine List.pairwise_append.mpr ⟨?_, ih _, ?_⟩
    · exact scanFrom_pairwise times ids sel T (times.length - c) c
    · intro a ha b hb
      have h1 := (scanFrom_emit_bounds times ids sel T (times.length - c) c
        a ha).2
      have h2 := scanSeq_emit_ge times ids sel Ts
        (scanFrom times ids sel T (times.length - c) c).1 b hb
      omega

/-- Monotone frame times propagate the due bound across a scan sequence:
every index below the final cursor has a timestamp at most the last observed
frame time. -/
lemma scanSeq_consumed (times : List ℚ) (ids sel : List ℕ) :
    ∀ Ts c B, List.Chain' (· ≤ ·) (B :: Ts) →
      (∀ i, i < c → times.getD i 0 ≤ B) →
      ∀ i, i < (scanSeq times ids sel Ts c).1 →
        times.getD i 0 ≤ (Ts.getLast?).getD B := by
  intro Ts
  induction Ts with
  | nil =>
    intro c B _ hbelow i hi
    simp only [scanSeq] at hi
    simpa using hbelow i hi
  | cons T Ts ih =>
    intro c B hchain hbelow i hi
    have hBT : B ≤ T := (List.chain'_cons.mp hchain).1
    have hchain' : List.Chain' (· ≤ ·) (T :: Ts) :=
      (List.chain'_cons.mp hchain).2
    have hbelow' : ∀ j, j < (updateSpikesScan times ids sel T c).1 →
        times.getD j 0 ≤ T := by
      intro j hj
      rcases Nat.lt_or_ge j c with hjc | hjc
      · exact le_trans (hbelow j hjc) hBT
      · exact (scanFrom_consumed times ids sel T (times.length - c) c j
          hjc hj).2
    simp only [scanSeq] at hi
    have := ih (updateSpikesScan times ids sel T c).1 T hchain' hbelow' i hi
    cases Ts with
    | nil => simpa using this
    | cons U Us => simpa [List.getLast?_cons_cons] using this

/-- C5 counterexample: spike table `[5]`, frame-time sequence `10` then `0`
(frame times may decrease, e.g. after the loop reset).  The first scan consumes
index `0`; afterwards the cursor is `1`, yet the consumed index has timestamp
`5`, which exceeds the last-observed frame time `0` — the claimed invariant
fails for non-monotone frame times. -/
theorem spike_cursor_cex :
    (scanSeq [(5 : ℚ)] [60] [60] [(10 : ℚ), 0] 0).1 = 1 ∧
    ¬ (([(5 : ℚ)]).getD 0 0 ≤ (([(10 : ℚ), 0]).getLast?).getD 0) := by
  constructor
  · rfl
  · simp

/-- C5 (amended): across any sequence of scans, (a) no spike-table index is
ever emitted twice, (b) the cursor never decreases, and (c) *provided the
observed frame times are non-decreasing*, every index below the final cursor
has a timestamp at most the last observed frame time.  (Part (c) of the
original claim fails for arbitrary frame times, see the counterexample.) -/
theorem spike_cursor_spec (times : List ℚ) (ids sel : List ℕ) :
    (∀ Ts c, (scanSeq times ids sel Ts c).2.Nodup) ∧
    (∀ Ts c, c ≤ (scanSeq times ids sel Ts c).1) ∧
    (∀ Ts c B, List.Chain' (· ≤ ·) (B :: Ts) →
      (∀ i, i < c → times.getD i 0 ≤ B) →
      ∀ i, i < (scanSeq times ids sel Ts c).1 →
        times.getD i 0 ≤ (Ts.getLast?).getD B) := by
  refine ⟨?_, scanSeq_cursor_ge times ids sel, scanSeq_consumed times ids sel⟩
  intro Ts c
  exact (scanSeq_pairwise times ids sel Ts c).imp Nat.ne_of_lt

/-- C5 witness: instance of `spike_cursor_spec` on the spike table `[1, 2]`
with the monotone frame-time sequence `[1, 2]` from cursor `0`: emissions are
duplicate-free, the cursor has not decreased, and the entry consumed at index
`1` has timestamp at most the last frame time. -/
theorem spike_cursor_spec_witness :
    (scanSeq [(1 : ℚ), 2] [60, 61] [60] [(1 : ℚ), 2] 0).2.Nodup ∧
    0 ≤ (scanSeq [(1 : ℚ), 2] [60, 61] [60] [(1 : ℚ), 2] 0).1 ∧
    ([(1 : ℚ), 2]).getD 1 0 ≤ (([(1 : ℚ), 2]).getLast?).getD 1 := by
  obtain ⟨h1, h2, h3⟩ := spike_cursor_spec [(1 : ℚ), 2] [60, 61] [60]
  refine ⟨h1 [(1 : ℚ), 2] 0, h2 [(1 : ℚ), 2] 0, ?_⟩
  refine h3 [(1 : ℚ), 2] 0 1 ?_ ?_ 1 ?_
  · exact List.chain'_cons.mpr ⟨le_refl 1,
      List.chain'_cons.mpr ⟨by norm_num, List.chain'_singleton 2⟩⟩
  · intro i hi
    omega
  · decide

/-- C6: the final cursor after a scan is independent of the source filter;
when the frame time is at or past every spike timestamp, scanning from cursor
`0` with the filter equal to the full identifier table emits exactly one event
per table entry (count = table length), while the empty filter emits nothing —
but both leave the cursor at the table length. -/
theorem spike_filter_spec (times : List ℚ) (ids : List ℕ) (T : ℚ)
    (hlen : ids.length = times.length)
    (hdue : ∀ i, i < times.length → times.getD i 0 ≤ T) :
    (∀ sel₁ sel₂ c, (updateSpikesScan times ids sel₁ T c).1 =
      (updateSpikesScan times ids sel₂ T c).1) ∧
    (updateSpikesScan times ids ids T 0).1 = times.length ∧
    (updateSpikesScan times ids ids T 0).2.length = times.length ∧
    (updateSpikesScan times ids [] T 0).1 = times.length ∧
    (updateSpikesScan times ids [] T 0).2 = [] := by
  have hreach : ∀ sel : List ℕ,
      (updateSpikesScan times ids sel T 0).1 = times.length := by
    intro sel
    exact scanFrom_reach times ids sel T hdue (times.length - 0) 0
      (by omega) (by omega)
  refine ⟨?_, hreach ids, ?_, hreach [], ?_⟩
  · intro sel₁ sel₂ c
    exact scanFrom_cursor_sel times ids T sel₁ sel₂ (times.length - c) c
  · have hsel : ∀ i, i < times.length → ids.getD i 0 ∈ ids := by
      intro i hi
      have hi' : i < ids.length := by omega
      rw [List.getD_eq_getElem?_getD, List.getElem?_eq_getElem hi']
      simp
    have hall := scanFrom_emit_all times ids ids T hsel (times.length - 0) 0
    have hr := hreach ids
    simp only [updateSpikesScan] at hr ⊢
    rw [hall, hr]
    omega
  · exact scanFrom_emit_empty times ids T (times.length - 0) 0

/-- C6 witness: instance of `spike_filter_spec` for the table with timestamps
`[1, 2]`, identifiers `[60, 61]` and frame time `2`. -/
theorem spike_filter_spec_witness :
    (∀ sel₁ sel₂ c, (updateSpikesScan [(1 : ℚ), 2] [60, 61] sel₁ 2 c).1 =
      (updateSpikesScan [(1 : ℚ), 2] [60, 61] sel₂ 2 c).1) ∧
    (updateSpikesScan [(1 : ℚ), 2] [60, 61] [60, 61] 2 0).1 = 2 ∧
    (updateSpikesScan [(1 : ℚ), 2] [60, 61] [60, 61] 2 0).2.length = 2 ∧
    (updateSpikesScan [(1 : ℚ), 2] [60, 61] [] 2 0).1 = 2 ∧
    (updateSpikesScan [(1 : ℚ), 2] [60, 61] [] 2 0).2 = [] := by
  have h := spike_filter_spec [(1 : ℚ), 2] [60, 61] 2 (by decide) (by decide)
  simpa using h

/-- C8 counterexample: with an empty frame-time table the current frame time
is conservatively `0`, but a spike with timestamp `0` (`≤ 0`) is nevertheless
consumed and emitted — so the scan does not always "emit nothing further"
while the frame time is out of range. -/
theorem frame_time_oob_cex :
    currentFrameTimeOf [] 0 = 0 ∧
    (updateSpikesScan [(0 : ℚ)] [60] [60]
      (currentFrameTimeOf [] 0) 0).2 = [0] := by
  constructor
  · rfl
  · rfl

/-- C8 (amended): when the frame index is out of range for the frame-time
table, the value used is `0` (never a failure), and — provided every pending
spike timestamp is positive — the scan then emits nothing and leaves the
cursor untouched until a valid frame time resumes. -/
theorem frame_time_oob_spec (frameTimes : List ℚ) (idx : ℕ) (times : List ℚ)
    (ids sel : List ℕ) (c : ℕ)
    (hoob : frameTimes.length ≤ idx)
    (hpos : ∀ i, c ≤ i → i < times.length → 0 < times.getD i 0) :
    currentFrameTimeOf frameTimes idx = 0 ∧
    updateSpikesScan times ids sel (currentFrameTimeOf frameTimes idx) c =
      (c, []) := by
  have h0 : currentFrameTimeOf frameTimes idx = 0 := by
    simp [currentFrameTimeOf, List.getD_eq_getElem?_getD,
      List.getElem?_eq_none hoob]
  refine ⟨h0, ?_⟩
  rw [h0]
  apply scanFrom_stuck
  rintro ⟨hc, hle⟩
  have := hpos c le_rfl hc
  linarith

/-- C8 witness: instance of `frame_time_oob_spec` with frame-time table
`[3]`, out-of-range index `7`, and a pending spike at timestamp `2 > 0`. -/
theorem frame_time_oob_spec_witness :
    currentFrameTimeOf [(3 : ℚ)] 7 = 0 ∧
    updateSpikesScan [(2 : ℚ)] [60] [60]
      (currentFrameTimeOf [(3 : ℚ)] 7) 0 = (0, []) := by
  refine frame_time_oob_spec [(3 : ℚ)] 7 [(2 : ℚ)] [60] [60] 0
    (by decide) ?_
  intro i _ hlen
  simp only [List.length_singleton] at hlen
  have h1 : i = 0 := by omega
  subst h1
  norm_num [List.getD]

/-- C9 counterexample: when the marker data loads with zero samples the outer
array still has 8 (empty) per-marker tracks, so the marker update is *not*
skipped, and the per-marker index computation `floor(currentSample) % 0` *is*
evaluated — producing no valid index (JS `NaN`, then a failed lookup) instead
of a reported refusal. -/
theorem empty_track_mod_cex :
    updateMarkersPositions (List.replicate 8 ([] : List Vec3)) 0 ≠ none ∧
    updateMarkersPositions (List.replicate 8 ([] : List Vec3)) 0 =
      some (List.replicate 8 none) ∧
    markerSampleIndex 0 0 = none := by
  refine ⟨?_, ?_, rfl⟩
  · simp [updateMarkersPositions]
  · rfl

/-- C9 (amended): a zero-length rigid-body track makes `updateRigidBody`
return early, leaving the trail untouched and evaluating no modulo — but
nothing is reported; a zero-length *marker* track is not guarded at all: the
update step still runs (the guard only checks the outer marker array), every
per-marker index computation `floor(cur) % 0` is evaluated, and it yields no
valid index. -/
theorem empty_track_spec (rbpos : List Vec3) (cur : ℚ) (cap : ℕ)
    (trail : (ℕ → Vec3) × ℕ) (mk : List (List Vec3))
    (hrb : rbpos.length = 0)
    (hmk : mk.length ≠ 0) (hempty : ∀ d ∈ mk, d = ([] : List Vec3)) :
    updateRigidBodyTrailStep rbpos cur cap trail = trail ∧
    markerSampleIndex cur 0 = none ∧
    updateMarkersPositions mk cur = some (mk.map fun _ => none) := by
  refine ⟨by simp [updateRigidBodyTrailStep, hrb], rfl, ?_⟩
  have hnone : ∀ d ∈ mk, markerPosAt d cur = none := by
    intro d hd
    rw [hempty d hd]
    simp [markerPosAt, markerSampleIndex, jsMod]
  rw [updateMarkersPositions, if_neg hmk]
  exact congrArg some (List.map_congr_left hnone)

/-- C9 witness: instance of `empty_track_spec` with an empty rigid-body track
and two empty marker tracks. -/
theorem empty_track_spec_witness :
    updateRigidBodyTrailStep [] 0 2 rbInit = rbInit ∧
    markerSampleIndex 0 0 = none ∧
    updateMarkersPositions [[], []] 0 =
      some (([[], []] : List (List Vec3)).map fun _ => none) := by
  refine empty_track_spec [] 0 2 rbInit [[], []] rfl (by decide) ?_
  intro d hd
  simpa using hd

/-- C10: every spike dot is placed at the rigid-body position of the current
frame projected onto the floor plus an independent dither of at most
`DITHER_AMOUNT / 2 = 0.025` per coordinate: its `x` is within `0.025` of the
rigid body's `x`, its `z` within `0.025` of the rigid body's `z`, and its `y`
within `0.025` of the constant `0.005`; the rigid body's `y` coordinate never
influences the dot's position. -/
theorem spikeDot_position_spec (rb rb' : Vec3) (r1 r2 r3 : ℚ)
    (h1 : 0 ≤ r1 ∧ r1 < 1) (h2 : 0 ≤ r2 ∧ r2 < 1) (h3 : 0 ≤ r3 ∧ r3 < 1) :
    |(spikeDotPosition rb r1 r2 r3).x - rb.x| ≤ 0.025 ∧
    |(spikeDotPosition rb r1 r2 r3).y - 0.005| ≤ 0.025 ∧
    |(spikeDotPosition rb r1 r2 r3).z - rb.z| ≤ 0.025 ∧
    (rb'.x = rb.x → rb'.z = rb.z →
      spikeDotPosition rb' r1 r2 r3 = spikeDotPosition rb r1 r2 r3) := by
  obtain ⟨h1a, h1b⟩ := h1
  obtain ⟨h2a, h2b⟩ := h2
  obtain ⟨h3a, h3b⟩ := h3
  refine ⟨?_, ?_, ?_, ?_⟩
  · simp only [spikeDotPosition, ditherAmount, abs_le]
    constructor <;> nlinarith
  · simp only [spikeDotPosition, ditherAmount, abs_le]
    constructor <;> nlinarith
  · simp only [spikeDotPosition, ditherAmount, abs_le]
    constructor <;> nlinarith
  · intro hx hz
    simp [spikeDotPosition, hx, hz]

/-- C10 witness: instance of `spikeDot_position_spec` at a concrete rigid-body
position and concrete random draws. -/
theorem spikeDot_position_spec_witness :
    |(spikeDotPosition ⟨1, 9, 2⟩ 0 (1/2) (3/4)).x - (1 : ℚ)| ≤ 0.025 ∧
    |(spikeDotPosition ⟨1, 9, 2⟩ 0 (1/2) (3/4)).y - 0.005| ≤ 0.025 ∧
    |(spikeDotPosition ⟨1, 9, 2⟩ 0 (1/2) (3/4)).z - (2 : ℚ)| ≤ 0.025 ∧
    ((⟨1, 5, 2⟩ : Vec3).x = (⟨1, 9, 2⟩ : Vec3).x →
      (⟨1, 5, 2⟩ : Vec3).z = (⟨1, 9, 2⟩ : Vec3).z →
      spikeDotPosition ⟨1, 5, 2⟩ 0 (1/2) (3/4) =
        spikeDotPosition ⟨1, 9, 2⟩ 0 (1/2) (3/4)) :=
  spikeDot_position_spec ⟨1, 9, 2⟩ ⟨1, 5, 2⟩ 0 (1/2) (3/4)
    (by norm_num) (by norm_num) (by norm_num)

end MocapViz
